import Mathlib

/-!
Verification of the `typescript-type-def` crate: a shallow embedding of its
type-expression model, dependency collector and TypeScript-module emitter,
together with proofs of the specified properties.

The public surface of the crate is `write_definition_file`, which walks the
dependency graph of a root type (or tuple of root types), collects every
reachable named type exactly once in dependency order, and writes a
TypeScript module (header comment, `export default`, a root namespace block
with one `export type` alias per named definition).

The repository sources available here contain only `lib.rs` (the public
re-exports and the doc tests pinning the exact output text); the `emit`,
`impls` and `type_expr` modules are absent, so the definitions below are
modelled from the specification, with the doc tests of `lib.rs` fixing the
concrete output bytes.
-/

set_option maxRecDepth 4000

namespace TsTypeDef

mutual
/-- Modelled from the spec: the `TypeExpr` algebraic representation of a
TypeScript type expression (module `type_expr` is absent from the sources).
Constructors cover named-type references qualified by a namespace path,
primitives, object shapes with optional-field markers, arrays, tuples,
unions and index signatures.  Field and element lists are their own
inductives so that rendering is structurally recursive. -/
inductive TypeExpr where
  | prim (kind : String)
  | ref (path : List String) (name : String)
  | obj (fields : FieldList)
  | arr (elem : TypeExpr)
  | tuple (elems : ExprList)
  | union (variants : ExprList)
  | indexSig (key : TypeExpr) (val : TypeExpr)

inductive FieldList where
  | nil
  | cons (key : String) (opt : Bool) (ty : TypeExpr) (rest : FieldList)

inductive ExprList where
  | nil
  | cons (head : TypeExpr) (rest : ExprList)
end

/-- Modelled from the spec: the error taxonomy of the emission engine
(module `emit` is absent from the sources): an unsupported shape, a
namespace collision between two distinct named definitions, or a failure of
the output sink. -/
inductive EmissionError where
  | unsupportedShape
  | namespaceCollision
  | outputError
  deriving DecidableEq, Repr

instance {ε α : Type} [DecidableEq ε] [DecidableEq α] : DecidableEq (Except ε α) :=
  fun a b =>
    match a, b with
    | .ok x, .ok y =>
      if h : x = y then .isTrue (by rw [h])
      else .isFalse (by intro c; injection c; exact h (by assumption))
    | .error x, .error y =>
      if h : x = y then .isTrue (by rw [h])
      else .isFalse (by intro c; injection c; exact h (by assumption))
    | .ok _, .error _ => .isFalse (by intro c; exact Except.noConfusion c)
    | .error _, .ok _ => .isFalse (by intro c; exact Except.noConfusion c)

/-- Renders a namespace path as the dotted qualifier text, e.g.
`["a", "b"]` becomes `"a.b."`. -/
def renderPath (p : List String) : String :=
  String.join (p.map (fun s => s ++ "."))

mutual
/-- Modelled from the spec: rendering of a `TypeExpr` to TypeScript syntax
(module `type_expr` is absent from the sources).  A named-type reference is
always qualified by the root namespace name; object fields render as
`"key":Type;` with a `?` marker for optional fields; unions as `A|B`;
tuples as `[A,B]`; arrays as `A[]`.  An index signature whose key type is
not `string` or `number` cannot be expressed and is an unsupported shape. -/
def renderExpr (root : String) : TypeExpr → Except EmissionError String
  | .prim k => .ok k
  | .ref p n => .ok (root ++ "." ++ renderPath p ++ n)
  | .obj fields => do
      let parts ← renderFields root fields
      pure ("\x7b" ++ parts ++ "\x7d")
  | .arr e => do
      let t ← renderExpr root e
      pure (t ++ "[]")
  | .tuple es => do
      let parts ← renderSep root "," es
      pure ("[" ++ parts ++ "]")
  | .union vs => renderSep root "|" vs
  | .indexSig k v => do
      let kt ← renderExpr root k
      let vt ← renderExpr root v
      if kt = "string" || kt = "number" then
        pure ("\x7b[key:" ++ kt ++ "]:" ++ vt ++ ";\x7d")
      else
        .error .unsupportedShape

def renderFields (root : String) : FieldList → Except EmissionError String
  | .nil => .ok ""
  | .cons k opt t rest => do
      let s ← renderExpr root t
      let r ← renderFields root rest
      pure ("\x22" ++ k ++ "\x22" ++ (if opt then "?" else "") ++ ":" ++ s ++ ";" ++ r)

def renderSep (root : String) (sep : String) : ExprList → Except EmissionError String
  | .nil => .ok ""
  | .cons t .nil => renderExpr root t
  | .cons t rest => do
      let s ← renderExpr root t
      let r ← renderSep root sep rest
      pure (s ++ sep ++ r)
end

/-- Modelled from the spec: one Shape Catalog entry for a native type
(module `impls` and the derive macro are absent from the sources): the
optional `(namespace path, name)` identity (`none` means the type is
inlined wherever used), the rendered body, and the direct dependencies as
catalog indices. -/
structure TypeInfo where
  tname : Option (List String × String)
  body : TypeExpr
  deps : List Nat

/-- Modelled from the spec: the Shape Catalog, a finite immutable mapping
from native-type identities (indices below `n`) to their shape entries. -/
structure Catalog where
  n : Nat
  info : Nat → TypeInfo

/-- Whether catalog entry `i` is a named definition (emitted standalone)
rather than an inlined type. -/
def isNamed (cat : Catalog) (i : Nat) : Bool :=
  (cat.info i).tname.isSome

/-- The namespace path of catalog entry `i` (empty for inlined types and
root-namespace definitions). -/
def pathOf (cat : Catalog) (i : Nat) : List String :=
  ((cat.info i).tname.map Prod.fst).getD []

/-- All catalog dependencies point below `n`. -/
abbrev DepsClosed (cat : Catalog) : Prop :=
  ∀ i < cat.n, ∀ j ∈ (cat.info i).deps, j < cat.n

/-- A pending action of the depth-first traversal: descend into a type, or
finish a type whose dependencies have all been pushed. -/
inductive Act where
  | visit (i : Nat)
  | finish (i : Nat)
  deriving DecidableEq, Repr

/-- Modelled from the spec: the Visitation State of the Dependency
Collector (module `emit` is absent from the sources).  `fresh` holds the
unvisited catalog indices, `gray` the in-progress ones (the DFS stack),
`done` the finished ones, `out` the named definitions in emission order,
and `descents` counts the types visited (including inlined ones). -/
structure St where
  fresh : List Nat
  gray : List Nat
  out : List Nat
  done : List Nat
  descents : Nat
  deriving DecidableEq, Repr

/-- Modelled from the spec: the depth-first dependency traversal of the
Dependency Collector (module `emit` is absent from the sources), written as
a fuel-indexed worklist loop.  Visiting a fresh type marks it in-progress
and pushes its dependencies ahead of its own finish marker; visiting a
non-fresh type (already in-progress or done) is skipped, which is the cycle
guard; finishing a type moves it from in-progress to done and, when it is
named, appends it to the output list. -/
def runF (cat : Catalog) : Nat → List Act → St → St
  | 0, _, st => st
  | _ + 1, [], st => st
  | f + 1, .finish i :: rest, st =>
      runF cat f rest
        { st with
          gray := st.gray.erase i,
          done := i :: st.done,
          out := if isNamed cat i then st.out ++ [i] else st.out }
  | f + 1, .visit i :: rest, st =>
      if i ∈ st.fresh then
        runF cat f ((cat.info i).deps.map Act.visit ++ Act.finish i :: rest)
          { st with
            fresh := st.fresh.erase i,
            gray := i :: st.gray,
            descents := st.descents + 1 }
      else
        runF cat f rest st

/-- Fuel weight of one fresh catalog entry: descending into it costs one
step, pushes one finish marker and one visit per dependency. -/
def weight (cat : Catalog) (i : Nat) : Nat :=
  (cat.info i).deps.length + 2

/-- The fuel potential: every traversal step strictly decreases it, so it
bounds the number of steps the traversal can take. -/
def phi (cat : Catalog) (tasks : List Act) (st : St) : Nat :=
  tasks.length + (st.fresh.map (weight cat)).sum

/-- The initial Visitation State: every catalog entry unvisited, nothing
in progress, nothing emitted. -/
def initSt (cat : Catalog) : St :=
  ⟨List.range cat.n, [], [], [], 0⟩

/-- Modelled from the spec: the Dependency Collector entry point (module
`emit` is absent from the sources): run the traversal from the roots in
their given order on a fresh state, with enough fuel to finish. -/
def collect (cat : Catalog) (roots : List Nat) : St :=
  runF cat (phi cat (roots.map Act.visit) (initSt cat)) (roots.map Act.visit) (initSt cat)

/-- Modelled from the spec: the recognized emission options (module `emit`
is absent from the sources): the header comment placed at the top of the
module and the root namespace name, which is also the default export. -/
structure DefinitionFileOptions where
  header : String
  root_namespace : String
  deriving DecidableEq, Repr

/-- Modelled from the spec: the default options — the auto-generated banner
naming the tool, and root namespace `types` (fixed by the doc tests of
`lib.rs`). -/
def DefinitionFileOptions.default : DefinitionFileOptions :=
  ⟨"// AUTO-GENERATED by typescript-type-def", "types"⟩

/-- Modelled from the spec: the statistics reported after a successful
emission: the count of distinct named definitions emitted and the count of
native types visited, including inlined ones. -/
structure Stats where
  type_definitions : Nat
  types_visited : Nat
  deriving DecidableEq, Repr

/-- The `(namespace path, name)` identities of the named definitions in an
emission list, used for the collision check. -/
def identsOf (cat : Catalog) (out : List Nat) : List (List String × String) :=
  out.filterMap (fun i => (cat.info i).tname)

/-- Renders one `export type Name=Body;` statement for a named definition. -/
def defLineE (cat : Catalog) (root : String) (i : Nat) : Except EmissionError String :=
  match (cat.info i).tname with
  | some (_, nm) => do
      let b ← renderExpr root (cat.info i).body
      pure ("export type " ++ nm ++ "=" ++ b ++ ";")
  | none => pure ""

/-- Wraps text in nested `export namespace` blocks, outermost segment
first. -/
def nsWrap (p : List String) (inner : String) : String :=
  p.foldr (fun seg acc => "export namespace " ++ seg ++ "\x7b" ++ acc ++ "\x7d") inner

/-- The distinct namespace paths of an emission list, in order of first
occurrence. -/
def distinctPaths (cat : Catalog) (out : List Nat) : List (List String) :=
  out.foldl (fun acc i => if pathOf cat i ∈ acc then acc else acc ++ [pathOf cat i]) []

/-- Renders one namespace partition: root-namespace definitions one per
line; a nested namespace as one nested block line. -/
def groupTextE (cat : Catalog) (root : String) (out : List Nat) (p : List String) :
    Except EmissionError String := do
  let defs := out.filter (fun i => decide (pathOf cat i = p))
  let lines ← defs.mapM (defLineE cat root)
  if p = [] then
    pure (String.join (lines.map (fun s => s ++ "\n")))
  else
    pure (nsWrap p (String.join lines) ++ "\n")

/-- Renders the bodies of all namespace partitions, in first-occurrence
order of their paths. -/
def renderDefs (cat : Catalog) (root : String) (out : List Nat) :
    Except EmissionError String := do
  let texts ← (distinctPaths cat out).mapM (groupTextE cat root out)
  pure (String.join texts)

/-- Modelled from the spec: the Emitter (module `emit` is absent from the
sources).  Checks that no two distinct named definitions collide on their
`(namespace path, name)` identity, renders every definition, and assembles
the module: header comment, blank line, `export default <root>;`, and the
root namespace block. -/
def moduleTextE (cat : Catalog) (out : List Nat) (opts : DefinitionFileOptions) :
    Except EmissionError String :=
  if (identsOf cat out).Nodup then
    match renderDefs cat opts.root_namespace out with
    | .ok body =>
        .ok (opts.header ++ "\n\nexport default " ++ opts.root_namespace ++
          ";\nexport namespace " ++ opts.root_namespace ++ "\x7b\n" ++ body ++ "\x7d\n")
    | .error e => .error e
  else
    .error .namespaceCollision

/-- Modelled from the spec: the output sink, abstracted as an optional byte
capacity (`none` = an always-succeeding sink).  Writing text beyond the
capacity writes only the leading bytes that fit and fails with an output
error. -/
def writeToSink (cap : Option Nat) (s : String) : String × Except EmissionError Unit :=
  match cap with
  | none => (s, .ok ())
  | some c =>
      if s.length ≤ c then (s, .ok ())
      else (⟨s.data.take c⟩, .error .outputError)

/-- Modelled from the spec: `write_definition_file`, the sole externally
invoked operation (module `emit` is absent from the sources).  Collects the
dependency closure of the roots, renders the module, writes it to the sink,
and returns the bytes actually written together with either the statistics
of a successful emission or the error that aborted it.  Collision and
rendering errors are detected before anything is written. -/
def write_definition_file (cap : Option Nat) (cat : Catalog) (roots : List Nat)
    (opts : DefinitionFileOptions) : String × Except EmissionError Stats :=
  match moduleTextE cat (collect cat roots).out opts with
  | .error e => ("", .error e)
  | .ok text =>
      match writeToSink cap text with
      | (written, .ok _) =>
          (written, .ok ⟨(collect cat roots).out.length, (collect cat roots).descents⟩)
      | (written, .error e) => (written, .error e)

/-- Modelled from the spec: the Shape Catalog restricted to the first doc
test of `lib.rs` (`struct Foo { a: usize, b: String }`; module `impls` is
absent from the sources).  Index 0 is the built-in `usize` (a named alias
`Usize` for `number`), index 1 the built-in `String` (inlined as the
`string` primitive), index 2 the record `Foo`. -/
def fooCat : Catalog where
  n := 3
  info := fun i =>
    match i with
    | 0 => ⟨some ([], "Usize"), .prim "number", []⟩
    | 1 => ⟨none, .prim "string", []⟩
    | _ =>
      ⟨some ([], "Foo"),
        .obj (.cons "a" false (.ref [] "Usize") (.cons "b" false (.prim "string") .nil)),
        [0, 1]⟩

/-- The exact module text asserted by the first doc test of `lib.rs`. -/
def fooExpected : String :=
  "// AUTO-GENERATED by typescript-type-def\n\nexport default types;\nexport namespace types\x7b\nexport type Usize=number;\nexport type Foo=\x7b\x22a\x22:types.Usize;\x22b\x22:string;\x7d;\n\x7d\n"

/-- Modelled from the spec: the Shape Catalog restricted to the second doc
test of `lib.rs` (`type Api = (Foo, Bar, Baz)` with `Baz` depending on the
unlisted `Qux`; module `impls` is absent from the sources).  Index 0 is the
built-in `String` (inlined), 1–4 are the records `Foo`, `Bar`, `Qux`,
`Baz`. -/
def apiCat : Catalog where
  n := 5
  info := fun i =>
    match i with
    | 0 => ⟨none, .prim "string", []⟩
    | 1 => ⟨some ([], "Foo"), .obj (.cons "a" false (.prim "string") .nil), [0]⟩
    | 2 => ⟨some ([], "Bar"), .obj (.cons "a" false (.prim "string") .nil), [0]⟩
    | 3 => ⟨some ([], "Qux"), .obj (.cons "a" false (.prim "string") .nil), [0]⟩
    | _ => ⟨some ([], "Baz"), .obj (.cons "a" false (.ref [] "Qux") .nil), [3]⟩

/-- The root list of the `Api = (Foo, Bar, Baz)` doc test. -/
def apiRoots : List Nat := [1, 2, 4]

/-- The exact module text asserted by the second doc test of `lib.rs`. -/
def apiExpected : String :=
  "// AUTO-GENERATED by typescript-type-def\n\nexport default types;\nexport namespace types\x7b\nexport type Foo=\x7b\x22a\x22:string;\x7d;\nexport type Bar=\x7b\x22a\x22:string;\x7d;\nexport type Qux=\x7b\x22a\x22:string;\x7d;\nexport type Baz=\x7b\x22a\x22:types.Qux;\x7d;\n\x7d\n"

/-- Modelled from the spec: a catalog with a single self-referential record
(a record containing an optional reference to its own type), exercising the
cycle guard. -/
def selfCat : Catalog where
  n := 1
  info := fun _ =>
    ⟨some ([], "SelfRef"),
      .obj (.cons "next" true
        (.union (.cons (.ref [] "SelfRef") (.cons (.prim "null") .nil))) .nil),
      [0]⟩

/-- The module text expected for the self-referential catalog: exactly one
definition, whose self-edge renders as a root-qualified reference. -/
def selfExpected : String :=
  "// AUTO-GENERATED by typescript-type-def\n\nexport default types;\nexport namespace types\x7b\nexport type SelfRef=\x7b\x22next\x22?:types.SelfRef|null;\x7d;\n\x7d\n"

/-- Modelled from the spec: a catalog with a record declared under the
namespace path `a.b` (the `#[type_def(namespace = "a.b")]` attribute of
`lib.rs`), plus the inlined built-in `String`. -/
def nsCat : Catalog where
  n := 2
  info := fun i =>
    match i with
    | 0 => ⟨none, .prim "string", []⟩
    | _ => ⟨some (["a", "b"], "Foo"), .obj (.cons "a" false (.prim "string") .nil), [0]⟩

/-- The module text expected for the namespaced catalog: the definition
sits inside nested `export namespace a`/`b` blocks, inside the root
namespace block. -/
def nsExpected : String :=
  "// AUTO-GENERATED by typescript-type-def\n\nexport default types;\nexport namespace types\x7b\nexport namespace a\x7bexport namespace b\x7bexport type Foo=\x7b\x22a\x22:string;\x7d;\x7d\x7d\n\x7d\n"

/-- Reachability along dependency edges of the catalog, growing a path by
one edge at its far end. -/
inductive Reaches (cat : Catalog) : Nat → Nat → Prop
  | refl (i : Nat) : Reaches cat i i
  | tail {i j k : Nat} : Reaches cat i j → k ∈ (cat.info j).deps → Reaches cat i k

/-- The finish markers of a worklist, in order; they mirror the in-progress
stack of the traversal. -/
def finishIds : List Act → List Nat
  | [] => []
  | .finish i :: r => i :: finishIds r
  | .visit _ :: r => finishIds r

theorem finishIds_append (l₁ l₂ : List Act) :
    finishIds (l₁ ++ l₂) = finishIds l₁ ++ finishIds l₂ := by
  induction l₁ with
  | nil => rfl
  | cons a t ih => cases a <;> simp [finishIds, ih]

theorem finishIds_map_visit (l : List Nat) : finishIds (l.map Act.visit) = [] := by
  induction l with
  | nil => rfl
  | cons a t ih => simp [finishIds, ih]

theorem mem_finishIds {i : Nat} : ∀ {tasks : List Act},
    i ∈ finishIds tasks → Act.finish i ∈ tasks := by
  intro tasks
  induction tasks with
  | nil => intro h; cases h
  | cons a t ih =>
    cases a with
    | visit j => intro h; exact List.mem_cons_of_mem _ (ih h)
    | finish j =>
      intro h
      rcases List.mem_cons.mp h with h | h
      · exact h ▸ List.mem_cons_self _ _
      · exact List.mem_cons_of_mem _ (ih h)

theorem sum_map_erase (f : Nat → Nat) : ∀ {l : List Nat} {i : Nat}, i ∈ l →
    (l.map f).sum = f i + ((l.erase i).map f).sum := by
  intro l
  induction l with
  | nil => intro i h; cases h
  | cons a t ih =>
    intro i h
    by_cases hai : a = i
    · subst hai
      simp [List.erase_cons_head]
    · have hit : i ∈ t := by
        rcases List.mem_cons.mp h with h | h
        · exact absurd h.symm hai
        · exact h
      rw [List.erase_cons_tail (by simp [hai])]
      simp only [List.map_cons, List.sum_cons, ih hit]
      omega

theorem cons_eq_append_cons {α : Type} {t : α} {rest pre post : List α} {y : α}
    (h : t :: rest = pre ++ y :: post) :
    (pre = [] ∧ y = t ∧ post = rest) ∨
      ∃ pre₂, pre = t :: pre₂ ∧ rest = pre₂ ++ y :: post := by
  cases pre with
  | nil =>
    simp only [List.nil_append] at h
    exact Or.inl ⟨rfl, (List.cons.injEq .. ▸ h).1.symm, (List.cons.injEq .. ▸ h).2.symm⟩
  | cons b pre₂ =>
    simp only [List.cons_append, List.cons.injEq] at h
    exact Or.inr ⟨pre₂, by rw [h.1], h.2⟩

theorem append_cons_cases {α : Type} {l₁ l₂ pre post : List α} {x y : α}
    (h : l₁ ++ x :: l₂ = pre ++ y :: post) (hy : y ∉ l₁) :
    (pre = l₁ ∧ y = x ∧ post = l₂) ∨
      ∃ pre₂, pre = l₁ ++ x :: pre₂ ∧ l₂ = pre₂ ++ y :: post := by
  induction l₁ generalizing pre with
  | nil =>
    simp only [List.nil_append] at h
    rcases cons_eq_append_cons h with ⟨h1, h2, h3⟩ | ⟨pre₂, h1, h2⟩
    · exact Or.inl ⟨h1, h2, h3⟩
    · exact Or.inr ⟨pre₂, by simp [h1], h2⟩
  | cons a t ih =>
    cases pre with
    | nil =>
      simp only [List.cons_append, List.nil_append, List.cons.injEq] at h
      exact absurd (h.1 ▸ List.mem_cons_self a t) (h.1 ▸ hy)
    | cons b pre₂ =>
      simp only [List.cons_append, List.cons.injEq] at h
      have hyt : y ∉ t := fun hmem => hy (List.mem_cons_of_mem _ hmem)
      rcases ih h.2 hyt with ⟨h1, h2, h3⟩ | ⟨pre₃, h1, h2⟩
      · exact Or.inl ⟨by rw [h.1, h1], h2, h3⟩
      · exact Or.inr ⟨pre₃, by rw [h.1, h1, List.cons_append], h2⟩

/-- No finish marker occurs among pure visit tasks. -/
theorem finish_not_mem_map_visit {g : Nat} {l : List Nat} :
    Act.finish g ∉ l.map Act.visit := by
  intro h
  rcases List.mem_map.mp h with ⟨a, _, ha⟩
  exact Act.noConfusion ha

/-- The dependency-before-dependent property of an emission order: every
named dependency of an emitted definition that does not reach back to its
dependent is itself emitted, strictly earlier. -/
def GoodOut (cat : Catalog) (out : List Nat) : Prop :=
  ∀ A ∈ out, ∀ B ∈ (cat.info A).deps, isNamed cat B = true →
    ¬ Reaches cat B A → B ∈ out ∧ out.indexOf B < out.indexOf A

/-- The invariant tying a worklist to a Visitation State: the three marker
sets partition the catalog; the finish markers mirror the in-progress
stack; the output lists exactly the named finished types in finish order;
pending visits stay inside the catalog; dependencies of every visited type
are pending or already visited; dependencies of an in-progress type are
pending before its own finish marker or already marked; everything pending
before a finish marker is reachable from its type; and the output emitted
so far is dependency-ordered. -/
structure Inv (cat : Catalog) (tasks : List Act) (st : St) : Prop where
  part : (st.fresh ++ st.gray ++ st.done).Perm (List.range cat.n)
  gfin : finishIds tasks = st.gray
  outdone : st.out = (st.done.filter (fun i => isNamed cat i)).reverse
  tlt : ∀ i, Act.visit i ∈ tasks → i < cat.n
  depc : ∀ j, j < cat.n → j ∉ st.fresh → ∀ k ∈ (cat.info j).deps,
      Act.visit k ∈ tasks ∨ k ∉ st.fresh
  depd : ∀ g pre post, tasks = pre ++ Act.finish g :: post →
      ∀ k ∈ (cat.info g).deps, Act.visit k ∈ pre ∨ k ∈ st.gray ∨ k ∈ st.done
  reach : ∀ g pre post, tasks = pre ++ Act.finish g :: post →
      ∀ i, (Act.visit i ∈ pre ∨ Act.finish i ∈ pre) → Reaches cat g i
  good : GoodOut cat st.out

/-- The marker sets of an invariant state have no duplicates. -/
theorem part_nodup {cat : Catalog} {st : St}
    (h : (st.fresh ++ st.gray ++ st.done).Perm (List.range cat.n)) :
    (st.fresh ++ st.gray ++ st.done).Nodup :=
  h.symm.nodup (List.nodup_range _)

/-- The traversal never adds to the unvisited set. -/
theorem runF_fresh_sublist (cat : Catalog) :
    ∀ f tasks st, (runF cat f tasks st).fresh.Sublist st.fresh := by
  intro f
  induction f with
  | zero => intro tasks st; exact List.Sublist.refl _
  | succ f ih =>
    intro tasks st
    cases tasks with
    | nil => exact List.Sublist.refl _
    | cons a rest =>
      cases a with
      | finish i => exact ih rest _
      | visit i =>
        by_cases h : i ∈ st.fresh
        · simp only [runF, if_pos h]
          exact (ih _ _).trans (List.erase_sublist _ _)
        · simp only [runF, if_neg h]
          exact ih _ _

/-- Descents and remaining unvisited types balance: each descent consumes
exactly one unvisited type. -/
theorem runF_descents (cat : Catalog) :
    ∀ f tasks st, (runF cat f tasks st).descents + (runF cat f tasks st).fresh.length =
      st.descents + st.fresh.length := by
  intro f
  induction f with
  | zero => intro tasks st; rfl
  | succ f ih =>
    intro tasks st
    cases tasks with
    | nil => rfl
    | cons a rest =>
      cases a with
      | finish i => exact ih rest _
      | visit i =>
        by_cases h : i ∈ st.fresh
        · simp only [runF, if_pos h]
          rw [ih]
          have := List.length_erase_add_one h
          simp only []
          omega
        · simp only [runF, if_neg h]
          exact ih _ _

/-- With enough fuel, every type whose visit is pending ends up visited. -/
theorem runF_visit_consumed (cat : Catalog) {i : Nat} :
    ∀ f tasks st, st.fresh.Nodup → phi cat tasks st ≤ f → Act.visit i ∈ tasks →
      i ∉ (runF cat f tasks st).fresh := by
  intro f
  induction f with
  | zero =>
    intro tasks st _ hphi hmem
    have : tasks = [] := by
      cases tasks with
      | nil => rfl
      | cons a t => simp [phi] at hphi
    subst this
    cases hmem
  | succ f ih =>
    intro tasks st hnd hphi hmem
    cases tasks with
    | nil => cases hmem
    | cons a rest =>
      cases a with
      | finish j =>
        simp only [runF]
        have hmem' : Act.visit i ∈ rest := by
          rcases List.mem_cons.mp hmem with h | h
          · exact absurd h (by intro h; exact Act.noConfusion h)
          · exact h
        refine ih rest _ hnd ?_ hmem'
        simp only [phi, List.length_cons] at hphi ⊢
        omega
      | visit j =>
        by_cases hj : j ∈ st.fresh
        · simp only [runF, if_pos hj]
          have hnd' : (st.fresh.erase j).Nodup := (List.erase_sublist _ _).nodup hnd
          have hphi' : phi cat ((cat.info j).deps.map Act.visit ++ Act.finish j :: rest)
              { st with fresh := st.fresh.erase j, gray := j :: st.gray,
                        descents := st.descents + 1 } ≤ f := by
            simp only [phi, List.length_append, List.length_map, List.length_cons] at hphi ⊢
            rw [sum_map_erase (weight cat) hj] at hphi
            simp only [weight] at hphi
            omega
          by_cases hij : i = j
          · subst hij
            intro hcontra
            exact hnd.not_mem_erase ((runF_fresh_sublist cat f _ _).subset hcontra)
          · have hmem' : Act.visit i ∈ (cat.info j).deps.map Act.visit ++ Act.finish j :: rest := by
              rcases List.mem_cons.mp hmem with h | h
              · exact absurd (by injection h) hij
              · exact List.mem_append_right _ (List.mem_cons_of_mem _ h)
            exact ih _ _ hnd' hphi' hmem'
        · simp only [runF, if_neg hj]
          rcases List.mem_cons.mp hmem with h | h
          · have hij : i = j := by injection h
            subst hij
            intro hcontra
            exact hj ((runF_fresh_sublist cat f _ _).subset hcontra)
          · refine ih rest _ hnd ?_ h
            simp only [phi, List.length_cons] at hphi ⊢
            omega

/-- The main preservation theorem: the traversal invariant holds of the
final state whenever it holds initially and the fuel covers the potential,
in which case the worklist is fully consumed. -/
theorem runF_inv (cat : Catalog) (hd : DepsClosed cat) :
    ∀ f tasks st, Inv cat tasks st → phi cat tasks st ≤ f →
      Inv cat [] (runF cat f tasks st) := by
  intro f
  induction f with
  | zero =>
    intro tasks st hInv hphi
    have htasks : tasks = [] := by
      cases tasks with
      | nil => rfl
      | cons a t => simp [phi] at hphi
    subst htasks
    exact hInv
  | succ f ih =>
    intro tasks st hInv hphi
    cases tasks with
    | nil => exact hInv
    | cons a rest =>
      cases a with
      | finish i =>
        simp only [runF]
        have hg : st.gray = i :: finishIds rest := by
          have h := hInv.gfin
          simp only [finishIds] at h
          exact h.symm
        have hgray' : st.gray.erase i = finishIds rest := by
          rw [hg]; exact List.erase_cons_head i _
        have hbig := part_nodup hInv.part
        have hout_done : ∀ x ∈ st.out, x ∈ st.done := by
          intro x hx
          rw [hInv.outdone] at hx
          exact (List.mem_filter.mp (List.mem_reverse.mp hx)).1
        have hi_gray : i ∈ st.gray := hg ▸ List.mem_cons_self i _
        have hi_not_done : i ∉ st.done := fun hdone =>
          (List.nodup_append.mp hbig).2.2 (List.mem_append_right _ hi_gray) hdone
        have hi_not_out : i ∉ st.out := fun h => hi_not_done (hout_done i h)
        have hpart' : (st.fresh ++ st.gray.erase i ++ (i :: st.done)).Perm
            (List.range cat.n) := by
          refine List.Perm.trans ?_ hInv.part
          rw [hgray', hg]
          simp only [List.append_assoc, List.cons_append]
          exact List.Perm.append_left _ List.perm_middle
        have hphi' : phi cat rest
            { st with gray := st.gray.erase i, done := i :: st.done,
                      out := if isNamed cat i then st.out ++ [i] else st.out } ≤ f := by
          simp only [phi, List.length_cons] at hphi ⊢
          omega
        refine ih rest _ ⟨hpart', ?_, ?_, ?_, ?_, ?_, ?_, ?_⟩ hphi'
        · exact hgray'.symm
        · by_cases hni : isNamed cat i <;>
            simp [List.filter_cons, hni, hInv.outdone]
        · exact fun k h => hInv.tlt k (List.mem_cons_of_mem _ h)
        · intro j hj hjf k hk
          rcases hInv.depc j hj hjf k hk with hv | hnf
          · rcases List.mem_cons.mp hv with h | h
            · exact absurd h (fun h => Act.noConfusion h)
            · exact Or.inl h
          · exact Or.inr hnf
        · intro g pre post hdec k hk
          have hdec' : Act.finish i :: rest = (Act.finish i :: pre) ++ Act.finish g :: post := by
            rw [hdec]; rfl
          rcases hInv.depd g _ _ hdec' k hk with hv | hgr | hdn
          · rcases List.mem_cons.mp hv with h | h
            · exact absurd h (fun h => Act.noConfusion h)
            · exact Or.inl h
          · rw [hg] at hgr
            rcases List.mem_cons.mp hgr with h | h
            · subst h
              exact Or.inr (Or.inr (List.mem_cons_self _ _))
            · refine Or.inr (Or.inl ?_)
              rw [hgray']
              exact h
          · exact Or.inr (Or.inr (List.mem_cons_of_mem _ hdn))
        · intro g pre post hdec i' hmem
          have hdec' : Act.finish i :: rest = (Act.finish i :: pre) ++ Act.finish g :: post := by
            rw [hdec]; rfl
          refine hInv.reach g _ _ hdec' i' ?_
          rcases hmem with h | h
          · exact Or.inl (List.mem_cons_of_mem _ h)
          · exact Or.inr (List.mem_cons_of_mem _ h)
        · by_cases hni : isNamed cat i
          · simp only [if_pos hni]
            intro A hA B hB hnB hnr
            rcases List.mem_append.mp hA with hAold | hAi
            · obtain ⟨hBout, hidx⟩ := hInv.good A hAold B hB hnB hnr
              refine ⟨List.mem_append_left _ hBout, ?_⟩
              rw [List.indexOf_append_of_mem hBout, List.indexOf_append_of_mem hAold]
              exact hidx
            · have hAi' : A = i := by simpa using hAi
              subst hAi'
              rcases hInv.depd A [] rest rfl B hB with hv | hgr | hdn
              · cases hv
              · rw [hg] at hgr
                rcases List.mem_cons.mp hgr with h | h
                · subst h
                  exact absurd (Reaches.refl B) hnr
                · have hfin : Act.finish B ∈ rest := mem_finishIds h
                  obtain ⟨s, t, hst⟩ := List.append_of_mem hfin
                  have hdec' : Act.finish A :: rest = (Act.finish A :: s) ++ Act.finish B :: t := by
                    rw [hst]; rfl
                  exact absurd (hInv.reach B _ _ hdec' A (Or.inr (List.mem_cons_self _ _))) hnr
              · have hBout : B ∈ st.out := by
                  rw [hInv.outdone]
                  exact List.mem_reverse.mpr (List.mem_filter.mpr ⟨hdn, hnB⟩)
                refine ⟨List.mem_append_left _ hBout, ?_⟩
                rw [List.indexOf_append_of_mem hBout,
                  List.indexOf_append_of_not_mem hi_not_out, List.indexOf_cons_self]
                have h1 : List.indexOf B st.out < st.out.length :=
                  List.indexOf_lt_length.mpr hBout
                omega
          · simp only [if_neg hni]
            exact hInv.good
      | visit i =>
        by_cases hfr : i ∈ st.fresh
        · simp only [runF, if_pos hfr]
          have hi_n : i < cat.n := hInv.tlt i (List.mem_cons_self _ _)
          have hbig := part_nodup hInv.part
          have hfresh_nd : st.fresh.Nodup :=
            (List.nodup_append.mp (List.nodup_append.mp hbig).1).1
          have hpc := List.perm_cons_erase hfr
          have hpart' : (st.fresh.erase i ++ (i :: st.gray) ++ st.done).Perm
              (List.range cat.n) := by
            refine List.Perm.trans ?_ hInv.part
            refine List.Perm.append_right st.done ?_
            exact List.Perm.trans List.perm_middle (hpc.append_right st.gray).symm
          have hgfin' : finishIds ((cat.info i).deps.map Act.visit ++ Act.finish i :: rest) =
              i :: st.gray := by
            rw [finishIds_append, finishIds_map_visit, List.nil_append]
            show i :: finishIds rest = i :: st.gray
            rw [show finishIds rest = st.gray from hInv.gfin]
          have hphi' : phi cat ((cat.info i).deps.map Act.visit ++ Act.finish i :: rest)
              { st with fresh := st.fresh.erase i, gray := i :: st.gray,
                        descents := st.descents + 1 } ≤ f := by
            simp only [phi, List.length_append, List.length_map, List.length_cons] at hphi ⊢
            rw [sum_map_erase (weight cat) hfr] at hphi
            simp only [weight] at hphi
            omega
          refine ih _ _ ⟨hpart', hgfin', hInv.outdone, ?_, ?_, ?_, ?_, hInv.good⟩ hphi'
          · intro k hk
            rcases List.mem_append.mp hk with h | h
            · obtain ⟨a, ha, hav⟩ := List.mem_map.mp h
              have hak : a = k := by injection hav
              subst hak
              exact hd i hi_n a ha
            · rcases List.mem_cons.mp h with h' | h'
              · exact absurd h' (fun h => Act.noConfusion h)
              · exact hInv.tlt k (List.mem_cons_of_mem _ h')
          · intro j hj hjf k hk
            by_cases hji : j = i
            · subst hji
              exact Or.inl (List.mem_append_left _ (List.mem_map_of_mem _ hk))
            · have hjf0 : j ∉ st.fresh := fun hmem =>
                hjf ((List.Nodup.mem_erase_iff hfresh_nd).mpr ⟨hji, hmem⟩)
              rcases hInv.depc j hj hjf0 k hk with hv | hnf
              · rcases List.mem_cons.mp hv with h | h
                · have hki : k = i := by injection h
                  subst hki
                  exact Or.inr hfresh_nd.not_mem_erase
                · exact Or.inl (List.mem_append_right _ (List.mem_cons_of_mem _ h))
              · exact Or.inr (fun hmem => hnf ((List.erase_sublist _ _).subset hmem))
          · intro g pre post hdec k hk
            rcases append_cons_cases hdec finish_not_mem_map_visit with
              ⟨hpre, heq, hpost⟩ | ⟨pre₂, hpre, hrest⟩
            · have hgi : g = i := by injection heq
              subst hgi
              subst hpre
              exact Or.inl (List.mem_map_of_mem _ hk)
            · have hdec' : Act.visit i :: rest = (Act.visit i :: pre₂) ++ Act.finish g :: post := by
                rw [hrest]; rfl
              rcases hInv.depd g _ _ hdec' k hk with hv | hgr | hdn
              · rcases List.mem_cons.mp hv with h | h
                · have hki : k = i := by injection h
                  subst hki
                  exact Or.inr (Or.inl (List.mem_cons_self _ _))
                · subst hpre
                  exact Or.inl (List.mem_append_right _ (List.mem_cons_of_mem _ h))
              · exact Or.inr (Or.inl (List.mem_cons_of_mem _ hgr))
              · exact Or.inr (Or.inr hdn)
          · intro g pre post hdec i' hmem
            rcases append_cons_cases hdec finish_not_mem_map_visit with
              ⟨hpre, heq, hpost⟩ | ⟨pre₂, hpre, hrest⟩
            · have hgi : g = i := by injection heq
              subst hgi
              subst hpre
              rcases hmem with h | h
              · obtain ⟨a, ha, hav⟩ := List.mem_map.mp h
                have hai : a = i' := by injection hav
                subst hai
                exact Reaches.tail (Reaches.refl g) ha
              · exact absurd h finish_not_mem_map_visit
            · have hdec' : Act.visit i :: rest = (Act.visit i :: pre₂) ++ Act.finish g :: post := by
                rw [hrest]; rfl
              have hreach := hInv.reach g _ _ hdec'
              have hgi : Reaches cat g i := hreach i (Or.inl (List.mem_cons_self _ _))
              subst hpre
              rcases hmem with h | h
              · rcases List.mem_append.mp h with h1 | h1
                · obtain ⟨a, ha, hav⟩ := List.mem_map.mp h1
                  have hai : a = i' := by injection hav
                  subst hai
                  exact Reaches.tail hgi ha
                · rcases List.mem_cons.mp h1 with h2 | h2
                  · exact absurd h2 (fun hc => Act.noConfusion hc)
                  · exact hreach i' (Or.inl (List.mem_cons_of_mem _ h2))
              · rcases List.mem_append.mp h with h1 | h1
                · exact absurd h1 finish_not_mem_map_visit
                · rcases List.mem_cons.mp h1 with h2 | h2
                  · have hii : i' = i := by injection h2
                    subst hii
                    exact hgi
                  · exact hreach i' (Or.inr (List.mem_cons_of_mem _ h2))
        · simp only [runF, if_neg hfr]
          have hphi' : phi cat rest st ≤ f := by
            simp only [phi, List.length_cons] at hphi ⊢
            omega
          refine ih rest st ⟨hInv.part, hInv.gfin, hInv.outdone, ?_, ?_, ?_, ?_, hInv.good⟩ hphi'
          · exact fun k h => hInv.tlt k (List.mem_cons_of_mem _ h)
          · intro j hj hjf k hk
            rcases hInv.depc j hj hjf k hk with hv | hnf
            · rcases List.mem_cons.mp hv with h | h
              · have hki : k = i := by injection h
                subst hki
                exact Or.inr hfr
              · exact Or.inl h
            · exact Or.inr hnf
          · intro g pre post hdec k hk
            have hdec' : Act.visit i :: rest = (Act.visit i :: pre) ++ Act.finish g :: post := by
              rw [hdec]; rfl
            rcases hInv.depd g _ _ hdec' k hk with hv | hgr | hdn
            · rcases List.mem_cons.mp hv with h | h
              · have hki : k = i := by injection h
                subst hki
                have hk_n : k < cat.n := hInv.tlt k (List.mem_cons_self _ _)
                have hk_big : k ∈ st.fresh ++ st.gray ++ st.done :=
                  hInv.part.mem_iff.mpr (List.mem_range.mpr hk_n)
                rcases List.mem_append.mp hk_big with h1 | h1
                · rcases List.mem_append.mp h1 with h2 | h2
                  · exact absurd h2 hfr
                  · exact Or.inr (Or.inl h2)
                · exact Or.inr (Or.inr h1)
              · exact Or.inl h
            · exact Or.inr (Or.inl hgr)
            · exact Or.inr (Or.inr hdn)
          · intro g pre post hdec i' hmem
            have hdec' : Act.visit i :: rest = (Act.visit i :: pre) ++ Act.finish g :: post := by
              rw [hdec]; rfl
            refine hInv.reach g _ _ hdec' i' ?_
            rcases hmem with h | h
            · exact Or.inl (List.mem_cons_of_mem _ h)
            · exact Or.inr (List.mem_cons_of_mem _ h)

/-- The invariant holds of the initial worklist and state. -/
theorem initial_inv (cat : Catalog) (roots : List Nat) (hr : ∀ r ∈ roots, r < cat.n) :
    Inv cat (roots.map Act.visit) (initSt cat) where
  part := by simp [initSt]
  gfin := finishIds_map_visit roots
  outdone := rfl
  tlt := by
    intro i h
    obtain ⟨a, ha, hav⟩ := List.mem_map.mp h
    have hai : a = i := by injection hav
    subst hai
    exact hr _ ha
  depc := by
    intro j hj hjf k _
    exact absurd (List.mem_range.mpr hj) hjf
  depd := by
    intro g pre post hdec
    have hmem : Act.finish g ∈ roots.map Act.visit := by
      rw [hdec]
      exact List.mem_append_right _ (List.mem_cons_self _ _)
    exact absurd hmem finish_not_mem_map_visit
  reach := by
    intro g pre post hdec
    have hmem : Act.finish g ∈ roots.map Act.visit := by
      rw [hdec]
      exact List.mem_append_right _ (List.mem_cons_self _ _)
    exact absurd hmem finish_not_mem_map_visit
  good := by
    intro A hA
    cases hA

/-- The invariant transported to the result of `collect`, with an empty
remaining worklist. -/
theorem collect_inv (cat : Catalog) (roots : List Nat) (hd : DepsClosed cat)
    (hr : ∀ r ∈ roots, r < cat.n) : Inv cat [] (collect cat roots) :=
  runF_inv cat hd _ _ _ (initial_inv cat roots hr) (le_refl _)

/-- Every type reachable from a root is inside the catalog and visited by
the collector. -/
theorem collect_reaches_not_fresh (cat : Catalog) (roots : List Nat) (hd : DepsClosed cat)
    (hr : ∀ r ∈ roots, r < cat.n) {r t : Nat} (hroot : r ∈ roots)
    (hreach : Reaches cat r t) : t < cat.n ∧ t ∉ (collect cat roots).fresh := by
  have hInv := collect_inv cat roots hd hr
  induction hreach with
  | refl =>
    refine ⟨hr _ hroot, ?_⟩
    exact runF_visit_consumed cat _ _ _ (by simpa [initSt] using List.nodup_range cat.n)
      (le_refl _) (List.mem_map_of_mem _ hroot)
  | tail hij hdep ih =>
    obtain ⟨hj_n, hj_nf⟩ := ih
    rename_i j k
    refine ⟨hd j hj_n k hdep, ?_⟩
    rcases hInv.depc j hj_n hj_nf k hdep with hv | hnf
    · cases hv
    · exact hnf

/-- Every named type visited by the collector is in its output list. -/
theorem collect_visited_in_out (cat : Catalog) (roots : List Nat) (hd : DepsClosed cat)
    (hr : ∀ r ∈ roots, r < cat.n) {t : Nat} (ht_n : t < cat.n)
    (ht_nf : t ∉ (collect cat roots).fresh) (hnamed : isNamed cat t = true) :
    t ∈ (collect cat roots).out := by
  have hInv := collect_inv cat roots hd hr
  have hgray : (collect cat roots).gray = [] := hInv.gfin.symm
  have hbig : t ∈ (collect cat roots).fresh ++ (collect cat roots).gray ++
      (collect cat roots).done := hInv.part.mem_iff.mpr (List.mem_range.mpr ht_n)
  have hdone : t ∈ (collect cat roots).done := by
    rcases List.mem_append.mp hbig with h1 | h1
    · rcases List.mem_append.mp h1 with h2 | h2
      · exact absurd h2 ht_nf
      · rw [hgray] at h2
        cases h2
    · exact h1
  rw [hInv.outdone]
  exact List.mem_reverse.mpr (List.mem_filter.mpr ⟨hdone, hnamed⟩)

/-- The output list of the collector has no duplicates. -/
theorem collect_out_nodup (cat : Catalog) (roots : List Nat) (hd : DepsClosed cat)
    (hr : ∀ r ∈ roots, r < cat.n) : (collect cat roots).out.Nodup := by
  have hInv := collect_inv cat roots hd hr
  have hbig := part_nodup hInv.part
  have hdone : (collect cat roots).done.Nodup := (List.nodup_append.mp hbig).2.1
  rw [hInv.outdone]
  exact List.nodup_reverse.mpr (hdone.filter _)

/-- In the `Api` catalog, everything reachable from `Qux` (index 3) is
`Qux` itself or the inlined `String` (index 0). -/
theorem api_qux_reaches_only (t : Nat) (h : Reaches apiCat 3 t) : t = 3 ∨ t = 0 := by
  induction h with
  | refl => exact Or.inl rfl
  | tail hij hdep ih =>
    rename_i j k
    rcases ih with h' | h' <;> subst h'
    · rw [show (apiCat.info 3).deps = [0] from rfl] at hdep
      simp at hdep
      exact Or.inr hdep
    · rw [show (apiCat.info 0).deps = [] from rfl] at hdep
      cases hdep

/-- C1: with default options, the single record `Foo { a: usize, b: String }`
emits exactly the auto-generated banner, a blank line,
`export default types;`, the `types` namespace block containing
`export type Usize=number;` and
`export type Foo={"a":types.Usize;"b":string;};`, and the closing brace —
the default header is the banner, the default root namespace is `types`,
and `usize` maps to `number` via the named alias `Usize`. -/
theorem claim_C1_single_record_default_output :
    (write_definition_file none fooCat [2] .default).1 = fooExpected ∧
    DefinitionFileOptions.default.header = "// AUTO-GENERATED by typescript-type-def" ∧
    DefinitionFileOptions.default.root_namespace = "types" ∧
    (fooCat.info 0).tname = some ([], "Usize") ∧
    (fooCat.info 0).body = .prim "number" :=
  ⟨by decide, rfl, rfl, rfl, rfl⟩

/-- C2: closure completeness — for any catalog and root set, the collector
output has no duplicates and contains every named type reachable from a
root; in particular `Qux` (index 3), not listed among the `Api` roots, is
still emitted as a dependency of `Baz`. -/
theorem claim_C2_closure_completeness (cat : Catalog) (roots : List Nat)
    (hd : DepsClosed cat) (hr : ∀ r ∈ roots, r < cat.n) :
    (collect cat roots).out.Nodup ∧
    (∀ r ∈ roots, ∀ t, Reaches cat r t → isNamed cat t = true →
      t ∈ (collect cat roots).out) ∧
    3 ∉ apiRoots ∧ 3 ∈ (collect apiCat apiRoots).out ∧
    (write_definition_file none apiCat apiRoots .default).1 = apiExpected := by
  refine ⟨collect_out_nodup cat roots hd hr, ?_, by decide, by decide, by decide⟩
  intro r hroot t hreach hnamed
  obtain ⟨ht_n, ht_nf⟩ := collect_reaches_not_fresh cat roots hd hr hroot hreach
  exact collect_visited_in_out cat roots hd hr ht_n ht_nf hnamed

/-- Witness for C2 at the concrete `Api` catalog. -/
theorem claim_C2_witness :
    (collect apiCat apiRoots).out.Nodup ∧ 3 ∈ (collect apiCat apiRoots).out :=
  ⟨(claim_C2_closure_completeness apiCat apiRoots (by decide) (by decide)).1,
    (claim_C2_closure_completeness apiCat apiRoots (by decide) (by decide)).2.2.2.1⟩

/-- C3: dependency ordering — if emitted `A` depends directly on named `B`
and the two are not mutually recursive, the definition of `B` appears at or
before that of `A` in the output; concretely the `Api = (Foo, Bar, Baz)` example
emits in the order `Foo`, `Bar`, `Qux`, `Baz`, with the unlisted
dependency `Qux` (index 3) immediately before its dependent `Baz` (index
4) and the independent roots in their given order. -/
theorem claim_C3_dependency_ordering (cat : Catalog) (roots : List Nat)
    (hd : DepsClosed cat) (hr : ∀ r ∈ roots, r < cat.n) (A B : Nat)
    (hA : A ∈ (collect cat roots).out) (hB : B ∈ (cat.info A).deps)
    (hnB : isNamed cat B = true)
    (hnm : ¬(Reaches cat A B ∧ Reaches cat B A)) :
    (B ∈ (collect cat roots).out ∧
      (collect cat roots).out.indexOf B ≤ (collect cat roots).out.indexOf A) ∧
    (collect apiCat apiRoots).out = [1, 2, 3, 4] := by
  have hAB : Reaches cat A B := Reaches.tail (Reaches.refl A) hB
  have hnr : ¬ Reaches cat B A := fun h => hnm ⟨hAB, h⟩
  have hInv := collect_inv cat roots hd hr
  obtain ⟨h1, h2⟩ := hInv.good A hA B hB hnB hnr
  exact ⟨⟨h1, le_of_lt h2⟩, by decide⟩

/-- Witness for C3: `Qux` (index 3) is emitted at or before `Baz` (index
4) in the `Api` example. -/
theorem claim_C3_witness :
    3 ∈ (collect apiCat apiRoots).out ∧
    (collect apiCat apiRoots).out.indexOf 3 ≤ (collect apiCat apiRoots).out.indexOf 4 := by
  have h := claim_C3_dependency_ordering apiCat apiRoots (by decide) (by decide) 4 3
    (by decide) (by decide) (by decide)
    (fun hc => by
      rcases api_qux_reaches_only 4 hc.2 with h' | h' <;> cases h')
  exact h.1

/-- C4: determinism — the emission is a pure function of sink, catalog,
roots and options, so two calls on the same input are byte-identical; the
two doc-test emissions each reproduce their exact expected bytes. -/
theorem claim_C4_determinism :
    (∀ cap cat roots opts,
      write_definition_file cap cat roots opts = write_definition_file cap cat roots opts) ∧
    (write_definition_file none fooCat [2] .default).1 = fooExpected ∧
    (write_definition_file none apiCat apiRoots .default).1 = apiExpected :=
  ⟨fun _ _ _ _ => rfl, by decide, by decide⟩

/-- C5: cycle safety and termination — the collector performs at most one
descent per distinct catalog entry on any graph, and the self-referential
record emits exactly one definition whose self-edge renders as a
root-qualified reference. -/
theorem claim_C5_cycle_safety_termination :
    (∀ cat roots, (collect cat roots).descents ≤ cat.n) ∧
    (collect selfCat [0]).out = [0] ∧
    (write_definition_file none selfCat [0] .default).1 = selfExpected ∧
    renderExpr "types" (.ref [] "SelfRef") = .ok "types.SelfRef" := by
  refine ⟨?_, by decide, by decide, by decide⟩
  intro cat roots
  have h := runF_descents cat (phi cat (roots.map Act.visit) (initSt cat))
    (roots.map Act.visit) (initSt cat)
  have h2 : (initSt cat).descents + (initSt cat).fresh.length = cat.n := by
    simp [initSt]
  unfold collect
  omega

/-- C6: error handling — the result is `Ok` exactly when the module
renders and writes in full (the bytes returned are then the complete
module); a collision or rendering error is returned as that error, and a
sink that cannot hold the module makes the call fail with an output
error. -/
theorem claim_C6_error_handling (cap : Option Nat) (cat : Catalog) (roots : List Nat)
    (opts : DefinitionFileOptions) :
    (∀ s, (write_definition_file cap cat roots opts).2 = .ok s →
      moduleTextE cat (collect cat roots).out opts =
        .ok ((write_definition_file cap cat roots opts).1)) ∧
    (∀ e, moduleTextE cat (collect cat roots).out opts = .error e →
      (write_definition_file cap cat roots opts).2 = .error e) ∧
    (∀ text c, moduleTextE cat (collect cat roots).out opts = .ok text → cap = some c →
      c < text.length →
      (write_definition_file cap cat roots opts).2 = .error .outputError) := by
  cases hm : moduleTextE cat (collect cat roots).out opts with
  | error e =>
    have hw : write_definition_file cap cat roots opts = ("", .error e) := by
      simp only [write_definition_file, hm]
    refine ⟨?_, ?_, ?_⟩
    · intro s hs
      rw [hw] at hs
      exact absurd hs (fun h => Except.noConfusion h)
    · intro e' he'
      injection he' with he'
      rw [hw, he']
    · intro text c htext
      exact absurd htext (fun h => Except.noConfusion h)
  | ok text =>
    cases cap with
    | none =>
      have hw : write_definition_file none cat roots opts =
          (text, .ok ⟨(collect cat roots).out.length, (collect cat roots).descents⟩) := by
        simp only [write_definition_file, hm, writeToSink]
      refine ⟨?_, ?_, ?_⟩
      · intro s _
        rw [hw]
      · intro e' he'
        exact absurd he' (fun h => Except.noConfusion h)
      · intro text' c _ hc
        exact absurd hc (fun h => Option.noConfusion h)
    | some c =>
      by_cases hlen : text.length ≤ c
      · have hw : write_definition_file (some c) cat roots opts =
            (text, .ok ⟨(collect cat roots).out.length, (collect cat roots).descents⟩) := by
          simp only [write_definition_file, hm, writeToSink, if_pos hlen]
        refine ⟨?_, ?_, ?_⟩
        · intro s _
          rw [hw]
        · intro e' he'
          exact absurd he' (fun h => Except.noConfusion h)
        · intro text' c' htext hc hlt
          injection htext with htext
          injection hc with hc
          subst htext
          subst hc
          omega
      · have hw : write_definition_file (some c) cat roots opts =
            (⟨text.data.take c⟩, .error .outputError) := by
          simp only [write_definition_file, hm, writeToSink, if_neg hlen]
        refine ⟨?_, ?_, ?_⟩
        · intro s hs
          rw [hw] at hs
          exact absurd hs (fun h => Except.noConfusion h)
        · intro e' he'
          exact absurd he' (fun h => Except.noConfusion h)
        · intro text' c' _ _ _
          rw [hw]

/-- Witness for C6: a 5-byte sink cannot hold the `Foo` module, so the
call fails with an output error. -/
theorem claim_C6_witness :
    (write_definition_file (some 5) fooCat [2] .default).2 = .error .outputError :=
  (claim_C6_error_handling (some 5) fooCat [2] .default).2.2 fooExpected 5
    (by decide) rfl (by decide)

/-- C7: statistics — a successful emission reports exactly the count of
named definitions emitted and the count of catalog entries descended into
(inlined ones included), and the module text is a function of the
collector output and options alone, independent of the statistics. -/
theorem claim_C7_statistics (cap : Option Nat) (cat : Catalog) (roots : List Nat)
    (opts : DefinitionFileOptions) :
    (∀ s, (write_definition_file cap cat roots opts).2 = .ok s →
      s.type_definitions = (collect cat roots).out.length ∧
      s.types_visited = (collect cat roots).descents ∧
      moduleTextE cat (collect cat roots).out opts =
        .ok ((write_definition_file cap cat roots opts).1)) ∧
    (write_definition_file none fooCat [2] .default).2 = .ok ⟨2, 3⟩ := by
  refine ⟨?_, by decide⟩
  intro s hs
  cases hm : moduleTextE cat (collect cat roots).out opts with
  | error e =>
    have hw : write_definition_file cap cat roots opts = ("", .error e) := by
      simp only [write_definition_file, hm]
    rw [hw] at hs
    exact absurd hs (fun h => Except.noConfusion h)
  | ok text =>
    cases cap with
    | none =>
      have hw : write_definition_file none cat roots opts =
          (text, .ok ⟨(collect cat roots).out.length, (collect cat roots).descents⟩) := by
        simp only [write_definition_file, hm, writeToSink]
      rw [hw] at hs
      injection hs with hs
      rw [hw, ← hs]
      exact ⟨rfl, rfl, rfl⟩
    | some c =>
      by_cases hlen : text.length ≤ c
      · have hw : write_definition_file (some c) cat roots opts =
            (text, .ok ⟨(collect cat roots).out.length, (collect cat roots).descents⟩) := by
          simp only [write_definition_file, hm, writeToSink, if_pos hlen]
        rw [hw] at hs
        injection hs with hs
        rw [hw, ← hs]
        exact ⟨rfl, rfl, rfl⟩
      · have hw : write_definition_file (some c) cat roots opts =
            (⟨text.data.take c⟩, .error .outputError) := by
          simp only [write_definition_file, hm, writeToSink, if_neg hlen]
        rw [hw] at hs
        exact absurd hs (fun h => Except.noConfusion h)

/-- Witness for C7 at the concrete `Foo` emission. -/
theorem claim_C7_witness :
    (⟨2, 3⟩ : Stats).type_definitions = (collect fooCat [2]).out.length ∧
    (⟨2, 3⟩ : Stats).types_visited = (collect fooCat [2]).descents := by
  have h := (claim_C7_statistics none fooCat [2] .default).1 ⟨2, 3⟩ (by decide)
  exact ⟨h.1, h.2.1⟩

/-- C8: namespace nesting — a definition declared under namespace path
`a.b` is emitted inside correspondingly nested `export namespace` blocks
within the root namespace block, and each path segment contributes exactly
one nesting level. -/
theorem claim_C8_namespace_nesting :
    (write_definition_file none nsCat [1] .default).1 = nsExpected ∧
    (∀ seg p inner, nsWrap (seg :: p) inner =
      "export namespace " ++ seg ++ "\x7b" ++ nsWrap p inner ++ "\x7d") ∧
    (∀ inner, nsWrap [] inner = inner) :=
  ⟨by decide, fun _ _ _ => rfl, fun _ => rfl⟩

/-- C9: every reference to a named definition renders qualified by the
root namespace name, never as a bare identifier; concretely the `Foo` and
`Baz` bodies render with `types.Usize` and `types.Qux`. -/
theorem claim_C9_qualified_refs :
    (∀ root p n, renderExpr root (.ref p n) = .ok (root ++ "." ++ renderPath p ++ n)) ∧
    renderExpr "types" ((fooCat.info 2).body) =
      .ok "\x7b\x22a\x22:types.Usize;\x22b\x22:string;\x7d" ∧
    renderExpr "types" ((apiCat.info 4).body) = .ok "\x7b\x22a\x22:types.Qux;\x7d" :=
  ⟨fun _ _ _ => rfl, by decide, by decide⟩

/-- C10: a `String` field is always inlined as the bare `string` primitive
and contributes no standalone definition, while a `usize` field produces
and references the named alias `Usize=number`; the emitted definitions
depend on which built-ins are aliased, not on field count. -/
theorem claim_C10_inlined_vs_aliased :
    (fooCat.info 1).tname = none ∧ (fooCat.info 1).body = .prim "string" ∧
    (apiCat.info 0).tname = none ∧
    (fooCat.info 0).tname = some ([], "Usize") ∧ (fooCat.info 0).body = .prim "number" ∧
    (collect apiCat [1]).out = [1] ∧
    (collect fooCat [2]).out = [0, 2] ∧
    (write_definition_file none apiCat [1] .default).1 =
      "// AUTO-GENERATED by typescript-type-def\n\nexport default types;\nexport namespace types\x7b\nexport type Foo=\x7b\x22a\x22:string;\x7d;\n\x7d\n" :=
  ⟨rfl, rfl, rfl, rfl, rfl, by decide, by decide, by decide⟩

end TsTypeDef
